import Mathlib

/-!
Verification of `scrrpy/drr.py`, the resonant-relaxation diffusion
coefficient module.  The development shallowly embeds:

* the resonance interpolation tables of `ResInterp` (`__init__`,
  `get_jf1`, `get_jf2`), including the `a_min` selection and the
  two-branch table fill;
* the per-point Monte Carlo integrand pipeline of `DRR._drr`
  (`Clnnp`), the coupling integrand `A2_integrand`, the normalization
  `_A2_norm_factor` and the final scaling of `_drr`;
* the j-grid construction of `DRR.__init__`;
* the `lru_cache` memoization of `DRR.drr`.

Numeric arrays are modelled as lists over `ℚ` where the code is purely
algebraic (linear interpolation, table fill, cache keys) and over `ℝ`
where the code is transcendental (`logspace` grids, `cos`/`sqrt` in
the integrand).  The log-spaced sample arrays that `ResInterp` builds
with `np.logspace` are passed to the table-fill definitions as explicit
list parameters; the claims proved about the fill hold for an arbitrary
(sorted) sample list, in particular for the log-spaced one.

The cusp model (`scrrpy/cusp.py`) is not part of the sources being
verified; it is represented by an abstract interface following the
spec.  The scipy spherical harmonic `sph_harm` is an external library
function and enters `_A2_norm_factor` as an abstract evaluation
function.
-/

namespace Scrrpy

/-- Modelled from the spec: the cusp model interface (`scrrpy/cusp.py`
is not among the verified sources).  Fields follow spec section 4.1:
signed precession frequency `nu_p(a, j)`, its derivative, loss-cone
angular momentum `jlc(a)`, inverse cumulative semi-major-axis sampler,
gravitational radius `rg`, influence radius `rh`, the critical
semi-major axis `a_gr1` where the precession changes sign, and the
frequency `nu_p1(a)` along the critical curve. -/
structure Cusp where
  nu_p : ℚ → ℚ → ℚ
  d_nu_p : ℚ → ℚ → ℚ
  jlc : ℚ → ℚ
  inverse_cumulative_a : ℚ → ℚ
  rg : ℚ
  rh : ℚ
  a_gr1 : ℚ
  nu_p1 : ℚ → ℚ

/-- The absolute tolerance `1e-8` used by `get_jf1`/`get_jf2`. -/
def tol8 : ℚ := 1 / 100000000

/-- `np.interp(x, xp, fp, left=0, right=0)` over a list of `(xp, fp)`
pairs with `xp` increasing: `0` outside the sampled range, piecewise
linear inside, boundary values at exact sample points. -/
def interp (x : ℚ) : List (ℚ × ℚ) → ℚ
  | [] => 0
  | [p] => if x = p.1 then p.2 else 0
  | p :: q :: rest =>
    if x < p.1 then 0
    else if x ≤ q.1 then p.2 + (q.2 - p.2) * (x - p.1) / (q.1 - p.1)
    else interp x (q :: rest)

/-- `np.abs` on a rational, written so that it evaluates by kernel
reduction. -/
def absQ (x : ℚ) : ℚ := if x < 0 then -x else x

/-- `np.argmin(np.abs(omega - w))` together with the minimal distance:
the index of the first entry minimizing `|v - w|`, paired with that
minimal distance (`none` on the empty array, where numpy raises). -/
def argminDist (w : ℚ) : List ℚ → Option (ℕ × ℚ)
  | [] => none
  | v :: rest =>
    match argminDist w rest with
    | none => some (0, absQ (v - w))
    | some (k, d) =>
      if absQ (v - w) ≤ d then some (0, absQ (v - w)) else some (k + 1, d)

/-- The state of a constructed `ResInterp`: construction frequencies
`omega` (`self.omega`), axis samples `af` (`self._af`) and the two
branch tables `j1`, `j2` (`self._j1`, `self._j2`; rows indexed like
`af`, columns like `omega`). -/
structure ResTbl where
  omega : List ℚ
  af : List ℚ
  j1 : List (List ℚ)
  j2 : List (List ℚ)

/-- Column `i` of a row-major table: `t[:, i]`. -/
def colOf (t : List (List ℚ)) (i : ℕ) : List ℚ :=
  t.map (fun row => row.getD i 0)

/-- The pairs `(af_k, j_k)` selected by the positive-entry mask:
`(self._af[j > 0], j[j > 0])`. -/
def solvedPts (af col : List ℚ) : List (ℚ × ℚ) :=
  (af.zip col).filter (fun p => decide (0 < p.2))

/-- `ResInterp.get_jf1(omega, af)` at a scalar axis value; `none`
models the `ValueError` raise on an untabulated frequency. -/
def get_jf1 (t : ResTbl) (w a : ℚ) : Option ℚ :=
  match argminDist w t.omega with
  | none => none
  | some (i, d) =>
    if tol8 < d then none
    else
      let pts := solvedPts t.af (colOf t.j1 i)
      if pts.isEmpty then some 0 else some (interp a pts)

/-- `ResInterp.get_jf2(omega, af)` at a scalar axis value; `none`
models the `ValueError` raise on an untabulated frequency. -/
def get_jf2 (t : ResTbl) (w a : ℚ) : Option ℚ :=
  match argminDist w t.omega with
  | none => none
  | some (i, d) =>
    if tol8 < d then none
    else
      let pts := solvedPts t.af (colOf t.j2 i)
      if pts.isEmpty then some 0 else some (interp a pts)

/-- Insertion into a list of pairs sorted by first component. -/
def insertByFst (p : ℚ × ℚ) : List (ℚ × ℚ) → List (ℚ × ℚ)
  | [] => [p]
  | q :: rest => if p.1 ≤ q.1 then p :: q :: rest else q :: insertByFst p rest

/-- Sorting a list of pairs by first component (`np.argsort` applied to
the frequency array, carrying the angular momenta along). -/
def sortByFst : List (ℚ × ℚ) → List (ℚ × ℚ)
  | [] => []
  | p :: rest => insertByFst p (sortByFst rest)

/-- The closure `get_j(nup)` of `ResInterp.__init__`: keep the j-samples
with positive frequency, sort by frequency and linearly interpolate each
construction frequency; out-of-range targets map to `0`. -/
def get_j (omega jf nup : List ℚ) : List ℚ :=
  let pts := sortByFst ((nup.zip jf).filter (fun p => decide (0 < p.1)))
  omega.map (fun w => interp w pts)

/-- One row of the branch-2 table for an axis sample `a` above the
critical axis: filled by `get_j(-nup)` when some sampled frequency is
negative (`if any(nup < 0)`), all zeros otherwise.  `jfOf a` is the
log-spaced angular-momentum sample array
`np.logspace(log10(jlc(a)), 0, 1001)[:-1]`, passed explicitly. -/
def resRow2 (c : Cusp) (omega : List ℚ) (jfOf : ℚ → List ℚ) (a : ℚ) : List ℚ :=
  let jf := jfOf a
  let nup := jf.map (c.nu_p a)
  if nup.any (fun v => decide (v < 0)) then get_j omega jf (nup.map (fun v => -v))
  else List.replicate omega.length 0

/-- The branch-2 table `self._j2` after the two fill loops of
`ResInterp.__init__`: a zero array of `af.length` rows in which the
loop over `af[af < a_gr1]` writes nothing and the loop over
`af[af > a_gr1]` writes rows starting at offset `last`, the number of
axis samples below the critical axis. -/
def buildJ2 (c : Cusp) (omega af : List ℚ) (jfOf : ℚ → List ℚ) : List (List ℚ) :=
  let below := af.filter (fun a => decide (a < c.a_gr1))
  let above := af.filter (fun a => decide (c.a_gr1 < a))
  (List.range af.length).map (fun k =>
    if k < below.length then List.replicate omega.length 0
    else if h : k - below.length < above.length then
      resRow2 c omega jfOf (above.get ⟨k - below.length, h⟩)
    else List.replicate omega.length 0)

/-- `omega.max()` (defaulting to `0` on the empty array, on which numpy
raises instead; theorems assume nonemptiness). -/
def listMaxD (l : List ℚ) : ℚ := l.max?.getD 0

/-- The `a_min` selection of `ResInterp.__init__`:
`self._af[(self._af < a_gr1) * (omega.max() < nu_p1(self._af))].max()`.
`none` models the numpy raise on an empty selection. -/
def aMinSel (c : Cusp) (omega af : List ℚ) : Option ℚ :=
  (af.filter (fun a =>
    decide (a < c.a_gr1) && decide (listMaxD omega < c.nu_p1 a))).max?

/-- Cache key of the memoized `DRR.drr`: the harmonic triple
`(l, n, n_p)` and the sample budget `neval`. -/
abbrev DrrKey := (ℤ × ℤ × ℤ) × ℚ

/-- Cached value of `DRR.drr`: the array of `(value, error)` rows over
the j-grid. -/
abbrev DrrVal := List (ℚ × ℚ)

/-- Association-list lookup modelling the `lru_cache` dictionary. -/
def cacheFind (k : DrrKey) : List (DrrKey × DrrVal) → Option DrrVal
  | [] => none
  | e :: rest => if e.1 = k then some e.2 else cacheFind k rest

/-- The `lru_cache`-wrapped `DRR.drr`: on a hit return the stored
arrays unchanged, on a miss run the integration `f`, store and return.
The boolean records whether the integration ran. -/
def drr_cached (f : DrrKey → DrrVal) (cache : List (DrrKey × DrrVal))
    (k : DrrKey) : DrrVal × List (DrrKey × DrrVal) × Bool :=
  match cacheFind k cache with
  | some v => (v, cache, false)
  | none => (f k, (k, f k) :: cache, true)

/-- `np.logspace(lo, hi, n)`: `n` points whose base-10 exponents are
linearly spaced from `lo` to `hi`. -/
noncomputable def logspace (lo hi : ℝ) (n : ℕ) : List ℝ :=
  (List.range n).map
    (fun k : ℕ => (10 : ℝ) ^ (lo + (hi - lo) * (k : ℝ) / ((n : ℝ) - 1)))

/-- The test-orbit j-grid of `DRR.__init__`:
`np.logspace(np.log10(jlc(sma)), 0, Njs)[:-1]`, as a function of the
loss-cone value `jlc = self.jlc(self.sma)`. -/
noncomputable def jGrid (jlc : ℝ) (Njs : ℕ) : List ℝ :=
  (logspace (Real.logb 10 jlc) 0 Njs).dropLast

/-- `A2_integrand(sma, j, sma_p, j_p, lnnp, true_anomaly)` at a single
sample point: `lnnp = (l, n, n_p)` and `ta` holds the four true-anomaly
phases (two for the test orbit, two for the partner). -/
noncomputable def A2_integrand (sma j sma_p j_p : ℝ) (lnnp : ℤ × ℤ × ℤ)
    (ta : ℝ × ℝ × ℝ × ℝ) : ℝ :=
  let l := lnnp.1
  let n := lnnp.2.1
  let n_p := lnnp.2.2
  let cnnp := Real.cos (ta.1 * (n : ℝ)) * Real.cos (ta.2.1 * (n : ℝ)) *
    Real.cos (ta.2.2.1 * (n_p : ℝ)) * Real.cos (ta.2.2.2 * (n_p : ℝ))
  let ecc := Real.sqrt (1 - j ^ 2)
  let eccp := Real.sqrt (1 - j_p ^ 2)
  let r_1 := sma * (1 - ecc ^ 2) / (1 - ecc * Real.cos ta.1)
  let r_2 := sma * (1 - ecc ^ 2) / (1 - ecc * Real.cos ta.2.1)
  let rp1 := sma_p * (1 - eccp ^ 2) / (1 - eccp * Real.cos ta.2.2.1)
  let rp2 := sma_p * (1 - eccp ^ 2) / (1 - eccp * Real.cos ta.2.2.2)
  cnnp / j ^ 2 / j_p ^ 2 / sma ^ 2 / sma_p ^ 4 *
    (min r_1 rp1 * min r_2 rp2) ^ (2 * l + 1) /
    (r_1 * r_2 * rp1 * rp2) ^ (l - 1)

/-- `DRR._integrand(j, sma_p, j_p, lnnp, true_anomaly)` at a single
sample point: `2 * j_p / |d_nu_p(sma_p, j_p)| / lnnp[-1]` times the
coupling integrand.  The cusp derivative enters as a parameter. -/
noncomputable def drr_integrand (d_nu_p : ℝ → ℝ → ℝ) (sma j sma_p j_p : ℝ)
    (lnnp : ℤ × ℤ × ℤ) (ta : ℝ × ℝ × ℝ × ℝ) : ℝ :=
  2 * j_p / |d_nu_p sma_p j_p| / (lnnp.2.2 : ℝ) *
    A2_integrand sma j sma_p j_p lnnp ta

/-- The batch integrand `Clnnp` of `DRR._drr` at a single sample point:
`x = np.zeros_like(sma_f)`, then `x[ix1] = integrand(..., jf1, ...)` on
the mask `jf1 > 0` and `x[ix2] = integrand(..., jf2, ...)` on the mask
`jf2 > 0`, where `F` is the partially applied integrand in the partner
angular momentum. -/
noncomputable def clnnp_point (F : ℝ → ℝ) (jf1 jf2 : ℝ) : ℝ :=
  let x0 : ℝ := 0
  let x1 := if 0 < jf1 then F jf1 else x0
  if 0 < jf2 then F jf2 else x1

/-- `_A2_norm_factor(l, n, n_p)`, with `Y n l` standing for the external
scipy evaluation `abs(sph_harm(n, l, 0, pi/2))**2`. -/
noncomputable def A2_norm_factor (Y : ℤ → ℤ → ℝ) (l n n_p : ℤ) : ℝ :=
  Y n l * Y n_p l * (4 * Real.pi / (2 * (l : ℝ) + 1)) ^ 2 / (2 * (l : ℝ) + 1)

/-- The returned value of `DRR._drr` for one grid point:
`np.array(integrate(Clnnp, integ, neval)) * _A2_norm_factor(*lnnp) * lnnp[1]**2`,
as a function of the Monte Carlo `(value, error)` pair `mc` produced by
`integrate`.  Note `lnnp[1]` is the second entry `n` of the triple. -/
noncomputable def drr_point (Y : ℤ → ℤ → ℝ) (mc : ℝ × ℝ)
    (lnnp : ℤ × ℤ × ℤ) : ℝ × ℝ :=
  (mc.1 * A2_norm_factor Y lnnp.1 lnnp.2.1 lnnp.2.2 * ((lnnp.2.1 : ℝ)) ^ 2,
   mc.2 * A2_norm_factor Y lnnp.1 lnnp.2.1 lnnp.2.2 * ((lnnp.2.1 : ℝ)) ^ 2)

/-- A concrete cusp instance used by evaluation witnesses:
`nu_p(a, j) = j - a`, constant loss cone `1/2`, critical axis `1`,
`nu_p1(a) = a`. -/
def cuspW : Cusp :=
  ⟨fun a j => j - a, fun _ _ => 1, fun _ => mkRat 1 2, id, mkRat 1 100, 2, 1,
   fun a => a⟩

lemma absQ_eq_abs (x : ℚ) : absQ x = |x| := by
  unfold absQ
  rcases lt_or_le x 0 with h | h
  · rw [if_pos h, abs_of_neg h]
  · rw [if_neg (not_lt.mpr h), abs_of_nonneg h]

lemma argminDist_spec (w : ℚ) (l : List ℚ) (hl : l ≠ []) :
    ∃ i d, argminDist w l = some (i, d) ∧ (∃ v ∈ l, |v - w| = d) ∧
      ∀ v ∈ l, d ≤ |v - w| := by
  induction l with
  | nil => exact absurd rfl hl
  | cons v rest ih =>
    rcases eq_or_ne rest [] with h | h
    · subst h
      exact ⟨0, |v - w|, by simp [argminDist, absQ_eq_abs], ⟨v, by simp, rfl⟩,
        by intro u hu; simp only [List.mem_singleton] at hu; subst hu; exact le_refl _⟩
    · obtain ⟨i, d, heq, ⟨u, hu, hud⟩, hmin⟩ := ih h
      by_cases hc : |v - w| ≤ d
      · refine ⟨0, |v - w|, ?_, ⟨v, by simp, rfl⟩, ?_⟩
        · simp [argminDist, heq, absQ_eq_abs, hc]
        · intro x hx
          rcases List.mem_cons.mp hx with hx | hx
          · subst hx; exact le_refl _
          · exact le_trans hc (hmin x hx)
      · refine ⟨i + 1, d, ?_, ⟨u, List.mem_cons_of_mem _ hu, hud⟩, ?_⟩
        · simp [argminDist, heq, absQ_eq_abs, hc]
        · intro x hx
          rcases List.mem_cons.mp hx with hx | hx
          · subst hx; exact le_of_lt (lt_of_not_le hc)
          · exact hmin x hx

lemma argminDist_tol_iff (omega : List ℚ) (w : ℚ) (h : omega ≠ []) :
    ∃ i d, argminDist w omega = some (i, d) ∧
      (tol8 < d ↔ ∀ v ∈ omega, tol8 < |v - w|) := by
  obtain ⟨i, d, heq, ⟨u, hu, hud⟩, hmin⟩ := argminDist_spec w omega h
  refine ⟨i, d, heq, ?_, ?_⟩
  · intro hd v hv
    exact lt_of_lt_of_le hd (hmin v hv)
  · intro hall
    rw [← hud]
    exact hall u hu

/-- C4: `get_jf1` and `get_jf2` fail (model: return `none`, the
`ValueError` raise) if and only if the queried frequency differs by
more than `1e-8` in absolute value from every (hence from the nearest)
construction frequency; within the tolerance they return a value. -/
theorem get_jf_raise_iff (t : ResTbl) (w a : ℚ) (h : t.omega ≠ []) :
    ((get_jf1 t w a = none) ↔ ∀ v ∈ t.omega, tol8 < |v - w|) ∧
    ((get_jf2 t w a = none) ↔ ∀ v ∈ t.omega, tol8 < |v - w|) := by
  obtain ⟨i, d, heq, hiff⟩ := argminDist_tol_iff t.omega w h
  constructor
  · unfold get_jf1
    rw [heq]
    by_cases hd : tol8 < d
    · simp only [if_pos hd]
      exact iff_of_true trivial (hiff.mp hd)
    · simp only [if_neg hd]
      constructor
      · intro hc
        split at hc <;> exact Option.noConfusion hc
      · intro hall
        exact absurd (hiff.mpr hall) hd
  · unfold get_jf2
    rw [heq]
    by_cases hd : tol8 < d
    · simp only [if_pos hd]
      exact iff_of_true trivial (hiff.mp hd)
    · simp only [if_neg hd]
      constructor
      · intro hc
        split at hc <;> exact Option.noConfusion hc
      · intro hall
        exact absurd (hiff.mpr hall) hd

/-- C4 witness: a concrete table queried `1` away from its single
construction frequency raises on both branches. -/
theorem get_jf_raise_iff_w :
    (⟨[1], [1], [[1]], [[0]]⟩ : ResTbl).omega ≠ [] ∧
    (((get_jf1 ⟨[1], [1], [[1]], [[0]]⟩ 2 0 = none) ↔
        ∀ v ∈ (⟨[1], [1], [[1]], [[0]]⟩ : ResTbl).omega, tol8 < |v - 2|) ∧
     ((get_jf2 ⟨[1], [1], [[1]], [[0]]⟩ 2 0 = none) ↔
        ∀ v ∈ (⟨[1], [1], [[1]], [[0]]⟩ : ResTbl).omega, tol8 < |v - 2|)) :=
  ⟨by decide, get_jf_raise_iff ⟨[1], [1], [[1]], [[0]]⟩ 2 0 (by decide)⟩

/-- C9: `ResInterp.__init__` raises (model: the `a_min` selection is
`none`, numpy raising on `max()` of an empty selection) exactly when no
axis sample satisfies both `a < a_gr1` and `omega.max() < nu_p1(a)`. -/
theorem aMinSel_none_iff (c : Cusp) (omega af : List ℚ) (h : omega ≠ []) :
    aMinSel c omega af = none ↔
      ∀ a ∈ af, ¬(a < c.a_gr1 ∧ listMaxD omega < c.nu_p1 a) := by
  unfold aMinSel
  rw [List.max?_eq_none_iff, List.filter_eq_nil_iff]
  constructor
  · intro hall a ha hcond
    exact hall a ha (by simp [hcond.1, hcond.2])
  · intro hall a ha hp
    simp only [Bool.and_eq_true, decide_eq_true_eq] at hp
    exact hall a ha hp

/-- C9 witness: a concrete cusp and frequency set on which no axis
sample passes the two-sided test, so construction fails. -/
theorem aMinSel_none_iff_w :
    ([(3 : ℚ)] ≠ []) ∧
    (aMinSel cuspW [3] [0, 2] = none ↔
      ∀ a ∈ [(0 : ℚ), 2],
        ¬(a < cuspW.a_gr1 ∧ listMaxD [3] < cuspW.nu_p1 a)) :=
  ⟨by decide, aMinSel_none_iff cuspW [3] [0, 2] (by decide)⟩

/-- C8: the memoized `DRR.drr` is idempotent on its cache: calling a
second time with the identical key returns the identical stored arrays
and does not re-run the Monte Carlo integration (flag `false`). -/
theorem drr_cached_memo (f : DrrKey → DrrVal) (cache : List (DrrKey × DrrVal))
    (k : DrrKey) :
    (drr_cached f (drr_cached f cache k).2.1 k).1 = (drr_cached f cache k).1 ∧
    (drr_cached f (drr_cached f cache k).2.1 k).2.2 = false := by
  unfold drr_cached
  cases h : cacheFind k cache with
  | some v => simp [h]
  | none => simp [h, cacheFind]

/-- C7: the normalization factor is symmetric under swapping the two
temporal harmonic indices, and at `l = 0`, `n = n_p = 0` it equals
`(4 pi)^2` times the two squared spherical-harmonic evaluations. -/
theorem A2_norm_factor_symm (Y : ℤ → ℤ → ℝ) (l n n_p : ℤ) :
    A2_norm_factor Y l n n_p = A2_norm_factor Y l n_p n ∧
    A2_norm_factor Y 0 0 0 = (4 * Real.pi) ^ 2 * (Y 0 0 * Y 0 0) := by
  unfold A2_norm_factor
  constructor
  · ring
  · push_cast
    ring_nf

/-- C10: the coupling integrand is invariant under negating either
temporal harmonic index, since they enter only through cosines. -/
theorem A2_integrand_neg_harmonic (sma j sma_p j_p : ℝ) (l n n_p : ℤ)
    (ta : ℝ × ℝ × ℝ × ℝ) :
    A2_integrand sma j sma_p j_p (l, -n, n_p) ta =
      A2_integrand sma j sma_p j_p (l, n, n_p) ta ∧
    A2_integrand sma j sma_p j_p (l, n, -n_p) ta =
      A2_integrand sma j sma_p j_p (l, n, n_p) ta := by
  unfold A2_integrand
  constructor <;>
    simp only [Int.cast_neg, mul_neg, Real.cos_neg]

/-- C2 counterexample: with unit spherical-harmonic evaluations, a unit
Monte Carlo value and the triple `(l, n, n_p) = (0, 1, 2)`, the value
returned by `_drr` differs from the Monte Carlo integral multiplied by
the normalization factor and the square of the partner index `n_p`. -/
theorem drr_point_cex :
    (drr_point (fun _ _ => 1) (1, 0) (0, 1, 2)).1 ≠
      1 * A2_norm_factor (fun _ _ => 1) 0 1 2 * ((2 : ℤ) : ℝ) ^ 2 := by
  unfold drr_point A2_norm_factor
  intro h
  norm_num at h
  nlinarith [Real.pi_pos, mul_pos Real.pi_pos Real.pi_pos]

/-- C2 (amended): the per-point result of `_drr` is the Monte Carlo
`(value, error)` pair scaled by the normalization factor times the
square of the second harmonic index `n` (`lnnp[1]`), in both
components. -/
theorem drr_point_scale (Y : ℤ → ℤ → ℝ) (mc : ℝ × ℝ) (l n n_p : ℤ) :
    drr_point Y mc (l, n, n_p) =
      (mc.1 * A2_norm_factor Y l n n_p * (n : ℝ) ^ 2,
       mc.2 * A2_norm_factor Y l n n_p * (n : ℝ) ^ 2) := rfl

lemma filter_lt_append_gt (g : ℚ) (af : List ℚ) (hs : af.Pairwise (· < ·))
    (hne : ∀ a ∈ af, a ≠ g) :
    af = af.filter (fun a => decide (a < g)) ++ af.filter (fun a => decide (g < a)) := by
  induction af with
  | nil => rfl
  | cons a rest ih =>
    have hrel := (List.pairwise_cons.mp hs).1
    have hrest := (List.pairwise_cons.mp hs).2
    have hner : ∀ x ∈ rest, x ≠ g := fun x hx => hne x (List.mem_cons_of_mem _ hx)
    rcases lt_or_gt_of_ne (hne a (List.mem_cons_self a rest)) with hlt | hgt
    · have h1 : decide (a < g) = true := decide_eq_true hlt
      have h2 : decide (g < a) = false := decide_eq_false (lt_asymm hlt)
      simp only [List.filter_cons, h1, h2, if_true, if_false, Bool.false_eq_true,
        List.cons_append]
      exact congrArg (a :: ·) (ih hrest hner)
    · have hall : ∀ x ∈ rest, g < x := fun x hx => lt_trans hgt (hrel x hx)
      have h1 : decide (a < g) = false := decide_eq_false (lt_asymm hgt)
      have h2 : decide (g < a) = true := decide_eq_true hgt
      have hf1 : rest.filter (fun x => decide (x < g)) = [] :=
        List.filter_eq_nil_iff.mpr
          (fun x hx => by simp [lt_asymm (hall x hx)])
      have hf2 : rest.filter (fun x => decide (g < x)) = rest :=
        List.filter_eq_self.mpr (fun x hx => decide_eq_true (hall x hx))
      simp [List.filter_cons, h1, h2, hf1, hf2]

/-- C6: rows of the branch-2 table whose axis sample lies below the
critical axis `a_gr1` are identically zero, and a nonzero row can occur
only at an axis sample above `a_gr1` at which some sampled precession
frequency is negative.  The axis grid is assumed strictly increasing
with no sample exactly at `a_gr1` (as holds for the generic log-spaced
grid). -/
theorem buildJ2_zero_below (c : Cusp) (omega af : List ℚ) (jfOf : ℚ → List ℚ)
    (hs : af.Pairwise (· < ·)) (hne : ∀ a ∈ af, a ≠ c.a_gr1)
    (k : ℕ) (ak : ℚ) (hak : af[k]? = some ak) (row : List ℚ)
    (hrow : (buildJ2 c omega af jfOf)[k]? = some row) :
    (ak < c.a_gr1 → row = List.replicate omega.length 0) ∧
    (row ≠ List.replicate omega.length 0 →
      c.a_gr1 < ak ∧ ∃ v ∈ (jfOf ak).map (c.nu_p ak), v < 0) := by
  have hsplit := filter_lt_append_gt c.a_gr1 af hs hne
  obtain ⟨hk, hgetk⟩ := List.getElem?_eq_some.mp hak
  have hlen2 : af.length =
      (af.filter (fun a => decide (a < c.a_gr1))).length +
      (af.filter (fun a => decide (c.a_gr1 < a))).length := by
    have h2 := congrArg List.length hsplit
    simpa using h2
  have hb := hrow
  unfold buildJ2 at hb
  simp only [List.getElem?_map, List.getElem?_range hk, Option.map_some',
    Option.some.injEq] at hb
  by_cases hkb : k < (af.filter (fun a => decide (a < c.a_gr1))).length
  · -- the row index lies in the below-critical block
    rw [if_pos hkb] at hb
    have hbelow : af[k]? = (af.filter (fun a => decide (a < c.a_gr1)))[k]? := by
      conv_lhs => rw [hsplit]
      rw [List.getElem?_append]
      rw [if_pos hkb]
    have hmem : ak ∈ af.filter (fun a => decide (a < c.a_gr1)) := by
      rw [hak] at hbelow
      obtain ⟨hk2, hg2⟩ := List.getElem?_eq_some.mp hbelow.symm
      exact hg2 ▸ List.getElem_mem hk2
    have hlt : ak < c.a_gr1 := of_decide_eq_true (List.mem_filter.mp hmem).2
    exact ⟨fun _ => hb.symm, fun hnz => absurd hb.symm hnz⟩
  · -- the row index lies in the above-critical block
    have hsub : k - (af.filter (fun a => decide (a < c.a_gr1))).length <
        (af.filter (fun a => decide (c.a_gr1 < a))).length := by
      omega
    rw [if_neg hkb, dif_pos hsub] at hb
    have habovek : af[k]? =
        (af.filter (fun a => decide (c.a_gr1 < a)))[k -
          (af.filter (fun a => decide (a < c.a_gr1))).length]? := by
      conv_lhs => rw [hsplit]
      rw [List.getElem?_append]
      rw [if_neg hkb]
    have hgeteq :
        (af.filter (fun a => decide (c.a_gr1 < a))).get
          ⟨k - (af.filter (fun a => decide (a < c.a_gr1))).length, hsub⟩ = ak := by
      rw [hak] at habovek
      obtain ⟨hk2, hg2⟩ := List.getElem?_eq_some.mp habovek.symm
      simpa [List.get_eq_getElem] using hg2
    have hmem : ak ∈ af.filter (fun a => decide (c.a_gr1 < a)) := by
      rw [← hgeteq]
      exact List.get_mem _ _ _
    have hgt : c.a_gr1 < ak := of_decide_eq_true (List.mem_filter.mp hmem).2
    have hrow3 : row = resRow2 c omega jfOf ak := by
      rw [← hb, hgeteq]
    constructor
    · intro hlt
      exact absurd hlt (lt_asymm hgt)
    · intro hnz
      refine ⟨hgt, ?_⟩
      by_cases hany : ((jfOf ak).map (c.nu_p ak)).any (fun v => decide (v < 0)) = true
      · obtain ⟨v, hv, hvlt⟩ := List.any_eq_true.mp hany
        exact ⟨v, hv, of_decide_eq_true hvlt⟩
      · exfalso
        apply hnz
        rw [hrow3]
        unfold resRow2
        simp only [Bool.not_eq_true] at hany
        simp [hany]

/-- C6 witness: a concrete two-sample table in which the below-critical
row is the zero row. -/
theorem buildJ2_zero_below_w :
    ([(0 : ℚ), 2].Pairwise (· < ·)) ∧
    (∀ a ∈ [(0 : ℚ), 2], a ≠ cuspW.a_gr1) ∧
    ([(0 : ℚ), 2][0]? = some 0) ∧
    ((buildJ2 cuspW [1] [0, 2] (fun _ => [0, 1]))[0]? = some [0]) ∧
    (((0 : ℚ) < cuspW.a_gr1 → [(0 : ℚ)] = List.replicate [(1 : ℚ)].length 0) ∧
     ([(0 : ℚ)] ≠ List.replicate [(1 : ℚ)].length 0 →
       cuspW.a_gr1 < 0 ∧
       ∃ v ∈ ([(0 : ℚ), 1]).map (cuspW.nu_p 0), v < 0)) :=
  ⟨by decide, by decide, by decide, by decide,
   buildJ2_zero_below cuspW [1] [0, 2] (fun _ => [0, 1]) (by decide) (by decide)
     0 0 (by decide) [0] (by decide)⟩

lemma jGrid_eq (jlc : ℝ) (m : ℕ) :
    jGrid jlc (m + 1) = (List.range m).map
      (fun k : ℕ => (10 : ℝ) ^ (Real.logb 10 jlc +
        (0 - Real.logb 10 jlc) * (k : ℝ) / (((m + 1 : ℕ) : ℝ) - 1))) := by
  unfold jGrid logspace
  rw [List.range_succ, List.map_append]
  simp [List.dropLast_concat]

/-- C3 counterexample: with loss-cone value `1/2` and `Njs = 3` the
first j-grid element equals the loss-cone value, so the grid is not
contained in the open interval `(j_lc, 1)`. -/
theorem jGrid_cex : ¬ (∀ e ∈ jGrid (1 / 2) 3, (1 / 2 : ℝ) < e ∧ e < 1) := by
  intro h
  have hmem : ((1 : ℝ) / 2) ∈ jGrid (1 / 2) 3 := by
    rw [show (3 : ℕ) = 2 + 1 from rfl, jGrid_eq]
    refine List.mem_map.mpr ⟨0, List.mem_range.mpr (by norm_num), ?_⟩
    have hf0 : Real.logb 10 (1 / 2 : ℝ) +
        (0 - Real.logb 10 (1 / 2 : ℝ)) * ((0 : ℕ) : ℝ) /
          (((2 + 1 : ℕ) : ℝ) - 1) = Real.logb 10 (1 / 2 : ℝ) := by
      push_cast
      ring
    rw [hf0]
    exact Real.rpow_logb (by norm_num) (by norm_num) (by norm_num)
  exact absurd (h _ hmem).1 (lt_irrefl _)

/-- C3 (amended): for `0 < jlc < 1` and `Njs ≥ 2` the j-grid is
strictly increasing, starts exactly at the loss-cone value `jlc`, is
contained in `[jlc, 1)` and has `Njs - 1` points. -/
theorem jGrid_spec (jlc : ℝ) (Njs : ℕ) (h0 : 0 < jlc) (h1 : jlc < 1)
    (hN : 2 ≤ Njs) :
    (jGrid jlc Njs).Pairwise (· < ·) ∧
    (jGrid jlc Njs).head? = some jlc ∧
    (∀ e ∈ jGrid jlc Njs, jlc ≤ e ∧ e < 1) ∧
    (jGrid jlc Njs).length = Njs - 1 := by
  obtain ⟨m, rfl⟩ : ∃ m, Njs = m + 1 := ⟨Njs - 1, by omega⟩
  have hm : 1 ≤ m := by omega
  have hLneg : Real.logb 10 jlc < 0 := Real.logb_neg (by norm_num) h0 h1
  have hpow : (10 : ℝ) ^ Real.logb 10 jlc = jlc :=
    Real.rpow_logb (by norm_num) (by norm_num) h0
  have hden : (((m + 1 : ℕ) : ℝ) - 1) = (m : ℝ) := by
    push_cast
    ring
  have hmpos : (0 : ℝ) < (m : ℝ) := by
    exact_mod_cast Nat.pos_of_ne_zero (by omega)
  rw [jGrid_eq]
  simp only [hden]
  have hexpo : ∀ k1 k2 : ℕ, k1 < k2 →
      Real.logb 10 jlc + (0 - Real.logb 10 jlc) * (k1 : ℝ) / (m : ℝ) <
      Real.logb 10 jlc + (0 - Real.logb 10 jlc) * (k2 : ℝ) / (m : ℝ) := by
    intro k1 k2 hk
    have hk2 : (k1 : ℝ) < (k2 : ℝ) := by exact_mod_cast hk
    have hc : (0 : ℝ) < 0 - Real.logb 10 jlc := by linarith
    have := mul_lt_mul_of_pos_left hk2 hc
    have := div_lt_div_of_pos_right this hmpos
    linarith [this]
  refine ⟨?_, ?_, ?_, ?_⟩
  · refine (List.pairwise_lt_range m).map _ ?_
    intro k1 k2 hk
    exact (Real.rpow_lt_rpow_left_iff (by norm_num)).mpr (hexpo k1 k2 hk)
  · rw [List.head?_eq_getElem?, List.getElem?_map, List.getElem?_range (by omega)]
    have hf0 : Real.logb 10 jlc +
        (0 - Real.logb 10 jlc) * ((0 : ℕ) : ℝ) / (m : ℝ) =
          Real.logb 10 jlc := by
      push_cast
      ring
    simp only [Option.map_some', hf0, hpow]
  · intro e he
    obtain ⟨k, hkmem, rfl⟩ := List.mem_map.mp he
    have hkm : k < m := List.mem_range.mp hkmem
    constructor
    · have hle : Real.logb 10 jlc ≤
          Real.logb 10 jlc + (0 - Real.logb 10 jlc) * (k : ℝ) / (m : ℝ) := by
        have hnn : (0 : ℝ) ≤ (0 - Real.logb 10 jlc) * (k : ℝ) / (m : ℝ) :=
          div_nonneg (mul_nonneg (by linarith) (Nat.cast_nonneg k))
            (le_of_lt hmpos)
        linarith
      calc jlc = (10 : ℝ) ^ Real.logb 10 jlc := hpow.symm
        _ ≤ _ := (Real.rpow_le_rpow_left_iff (by norm_num)).mpr hle
    · have hfrac : (k : ℝ) / (m : ℝ) < 1 :=
        (div_lt_one hmpos).mpr (by exact_mod_cast hkm)
      have hlt : (0 - Real.logb 10 jlc) * ((k : ℝ) / (m : ℝ)) <
          (0 - Real.logb 10 jlc) * 1 :=
        mul_lt_mul_of_pos_left hfrac (by linarith)
      have hneg : Real.logb 10 jlc +
          (0 - Real.logb 10 jlc) * (k : ℝ) / (m : ℝ) < 0 := by
        rw [mul_div_assoc]
        linarith
      exact Real.rpow_lt_one_of_one_lt_of_neg (by norm_num) hneg
  · simp

/-- C3 witness: the amended grid properties at loss-cone value `1/2`
and `Njs = 2`. -/
theorem jGrid_spec_w :
    ((0 : ℝ) < 1 / 2) ∧ ((1 / 2 : ℝ) < 1) ∧ (2 ≤ 2) ∧
    ((jGrid (1 / 2) 2).Pairwise (· < ·) ∧
     (jGrid (1 / 2) 2).head? = some (1 / 2) ∧
     (∀ e ∈ jGrid (1 / 2) 2, (1 / 2 : ℝ) ≤ e ∧ e < 1) ∧
     (jGrid (1 / 2) 2).length = 2 - 1) :=
  ⟨by norm_num, by norm_num, by norm_num,
   jGrid_spec (1 / 2) 2 (by norm_num) (by norm_num) (by norm_num)⟩

/-- C1: at a sample point where both resonance branches have a
solution (`jf1 > 0` and `jf2 > 0`), the batch integrand `Clnnp` of
`_drr` returns only the branch-2 contribution: the masked assignment
`x[ix2] = ...` overwrites the branch-1 value instead of adding to it.
At a concrete point where each branch contributes `2`, the code yields
`2` and not the additive `2 + 2` described by the spec. -/
theorem clnnp_point_overwrite :
    (0 : ℝ) < 1 ∧
    clnnp_point
      (fun jp => drr_integrand (fun _ _ => 1) 1 1 1 jp (0, 1, 1) (0, 0, 0, 0))
      1 1 = 2 ∧
    clnnp_point
      (fun jp => drr_integrand (fun _ _ => 1) 1 1 1 jp (0, 1, 1) (0, 0, 0, 0))
      1 1 ≠
      drr_integrand (fun _ _ => 1) 1 1 1 1 (0, 1, 1) (0, 0, 0, 0) +
        drr_integrand (fun _ _ => 1) 1 1 1 1 (0, 1, 1) (0, 0, 0, 0) := by
  have hF : drr_integrand (fun _ _ => 1) 1 1 1 1 (0, 1, 1) (0, 0, 0, 0) = 2 := by
    unfold drr_integrand A2_integrand
    norm_num [Real.cos_zero, Real.sqrt_zero, one_zpow]
  have hcl : clnnp_point
      (fun jp => drr_integrand (fun _ _ => 1) 1 1 1 jp (0, 1, 1) (0, 0, 0, 0))
      1 1 =
      drr_integrand (fun _ _ => 1) 1 1 1 1 (0, 1, 1) (0, 0, 0, 0) := by
    unfold clnnp_point
    norm_num
  refine ⟨by norm_num, ?_, ?_⟩
  · rw [hcl, hF]
  · rw [hcl, hF]
    norm_num

lemma pairwise_fst_zip (af col : List ℚ) (hs : af.Pairwise (· < ·)) :
    (af.zip col).Pairwise (fun p q : ℚ × ℚ => p.1 < q.1) := by
  induction af generalizing col with
  | nil => simp
  | cons a rest ih =>
    cases col with
    | nil => simp
    | cons c cs =>
      rw [List.zip_cons_cons]
      refine List.pairwise_cons.mpr ⟨?_, ih cs hs.of_cons⟩
      intro q hq
      obtain ⟨x, y⟩ := q
      exact (List.pairwise_cons.mp hs).1 x (List.of_mem_zip hq).1

lemma solvedPts_pairwise (af col : List ℚ) (hs : af.Pairwise (· < ·)) :
    (solvedPts af col).Pairwise (fun p q : ℚ × ℚ => p.1 < q.1) :=
  (pairwise_fst_zip af col hs).filter _

lemma interp_left_zero (x : ℚ) (pts : List (ℚ × ℚ)) (p0 : ℚ × ℚ)
    (h0 : pts.head? = some p0) (hx : x < p0.1) : interp x pts = 0 := by
  cases pts with
  | nil => simp at h0
  | cons p rest =>
    have hp : p = p0 := by simpa using h0
    subst hp
    cases rest with
    | nil =>
      simp only [interp]
      rw [if_neg (ne_of_lt hx)]
    | cons q rest2 =>
      simp only [interp]
      rw [if_pos hx]

lemma interp_right_zero (x : ℚ) : ∀ pts : List (ℚ × ℚ),
    pts.Pairwise (fun p q : ℚ × ℚ => p.1 < q.1) →
    ∀ pl : ℚ × ℚ, pts.getLast? = some pl → pl.1 < x → interp x pts = 0 := by
  intro pts
  induction pts with
  | nil =>
    intro _ pl hl
    simp at hl
  | cons p rest ih =>
    intro hp pl hl hx
    cases rest with
    | nil =>
      have hppl : p = pl := by simpa using hl
      subst hppl
      simp only [interp]
      rw [if_neg (ne_of_gt hx)]
    | cons q rest2 =>
      have hl2 : (q :: rest2).getLast? = some pl := by
        rwa [List.getLast?_cons_cons] at hl
      have hpq : p.1 < q.1 :=
        (List.pairwise_cons.mp hp).1 q (List.mem_cons_self q rest2)
      have hql : q.1 ≤ pl.1 := by
        rcases List.mem_cons.mp (List.mem_of_getLast?_eq_some hl2) with h | h
        · rw [← h]
        · exact le_of_lt ((List.pairwise_cons.mp hp.of_cons).1 pl h)
      have hpx : p.1 < x := lt_trans (lt_of_lt_of_le hpq hql) hx
      simp only [interp]
      rw [if_neg (not_lt.mpr (le_of_lt hpx)),
        if_neg (not_le.mpr (lt_of_le_of_lt hql hx))]
      exact ih hp.of_cons pl hl2 hx

lemma interp_between (x : ℚ) : ∀ pts : List (ℚ × ℚ),
    pts.Pairwise (fun p q : ℚ × ℚ => p.1 < q.1) →
    ∀ p0 pl : ℚ × ℚ, pts.head? = some p0 → pts.getLast? = some pl →
    p0.1 ≤ x → x ≤ pl.1 →
    ∃ p ∈ pts, ∃ q ∈ pts, ∃ t : ℚ, 0 ≤ t ∧ t ≤ 1 ∧
      x = t * p.1 + (1 - t) * q.1 ∧
      interp x pts = t * p.2 + (1 - t) * q.2 := by
  intro pts
  induction pts with
  | nil =>
    intro _ p0 pl h0
    simp at h0
  | cons p rest ih =>
    intro hp p0 pl h0 hl hx0 hx1
    have hpp0 : p = p0 := by simpa using h0
    subst hpp0
    cases rest with
    | nil =>
      have hppl : p = pl := by simpa using hl
      have hxeq : x = p.1 := le_antisymm (hppl ▸ hx1) hx0
      refine ⟨p, List.mem_cons_self p [], p, List.mem_cons_self p [], 1,
        zero_le_one, le_refl 1, by rw [hxeq]; ring, ?_⟩
      simp only [interp]
      rw [if_pos hxeq]
      ring
    | cons q rest2 =>
      have hpq : p.1 < q.1 :=
        (List.pairwise_cons.mp hp).1 q (List.mem_cons_self q rest2)
      by_cases h2 : x ≤ q.1
      · -- x falls in the first segment
        have hD : q.1 - p.1 ≠ 0 := ne_of_gt (by linarith)
        refine ⟨p, List.mem_cons_self _ _, q,
          List.mem_cons_of_mem _ (List.mem_cons_self q rest2),
          (q.1 - x) / (q.1 - p.1), ?_, ?_, ?_, ?_⟩
        · exact div_nonneg (by linarith) (by linarith)
        · rw [div_le_one (by linarith)]
          linarith
        · field_simp
          ring
        · simp only [interp]
          rw [if_neg (not_lt.mpr hx0), if_pos h2]
          field_simp
          ring
      · -- x lies beyond the first segment: recurse on the tail
        have hq1x : q.1 ≤ x := le_of_lt (lt_of_not_le h2)
        have hl2 : (q :: rest2).getLast? = some pl := by
          rwa [List.getLast?_cons_cons] at hl
        obtain ⟨pa, hpa, qa, hqa, t, ht0, ht1, hxeq, hveq⟩ :=
          ih hp.of_cons q pl (List.head?_cons) hl2 hq1x hx1
        refine ⟨pa, List.mem_cons_of_mem _ hpa, qa, List.mem_cons_of_mem _ hqa,
          t, ht0, ht1, hxeq, ?_⟩
        rw [← hveq]
        simp only [interp]
        rw [if_neg (not_lt.mpr hx0), if_neg h2]

/-- C5: querying branch 1 at a construction frequency never raises, and
the returned interpolant is `0` when the selected column has no
positive entry, `0` for axis values outside the solved sub-range, and a
value in `(jlc a, 1)` for axis values inside it.  The positive column
entries are assumed to lie in `(jlc af_k, 1)` (the construction
invariant) and the loss-cone curve `jlc` of the abstract cusp model is
assumed convex, as the physical loss-cone curve is. -/
theorem get_jf1_range (t : ResTbl) (jlc : ℚ → ℚ) (w a : ℚ) (i : ℕ) (d : ℚ)
    (hw : w ∈ t.omega)
    (hi : argminDist w t.omega = some (i, d))
    (hs : t.af.Pairwise (· < ·))
    (hB : ∀ p ∈ solvedPts t.af (colOf t.j1 i), jlc p.1 < p.2 ∧ p.2 < 1)
    (hconv : ConvexOn ℚ Set.univ jlc) :
    ∃ r, get_jf1 t w a = some r ∧
      (solvedPts t.af (colOf t.j1 i) = [] → r = 0) ∧
      ∀ p0 pl, (solvedPts t.af (colOf t.j1 i)).head? = some p0 →
        (solvedPts t.af (colOf t.j1 i)).getLast? = some pl →
        (((a < p0.1 ∨ pl.1 < a) → r = 0) ∧
         (p0.1 ≤ a → a ≤ pl.1 → jlc a < r ∧ r < 1)) := by
  obtain ⟨i2, d2, heq2, ⟨u, hu, hud⟩, hmin⟩ :=
    argminDist_spec w t.omega (List.ne_nil_of_mem hw)
  rw [hi] at heq2
  obtain ⟨hi2, hd2⟩ : i2 = i ∧ d2 = d := by
    have h2 := Option.some.inj heq2
    exact ⟨congrArg Prod.fst h2.symm, congrArg Prod.snd h2.symm⟩
  have hd0 : d = 0 := by
    have h1 : d2 ≤ |w - w| := hmin w hw
    have h2 : 0 ≤ d2 := hud ▸ abs_nonneg _
    rw [hd2] at h1 h2
    simp only [sub_self, abs_zero] at h1
    exact le_antisymm h1 h2
  have hnotol : ¬ tol8 < d := by
    rw [hd0]
    unfold tol8
    norm_num
  have hval : get_jf1 t w a =
      some (if (solvedPts t.af (colOf t.j1 i)).isEmpty then 0
            else interp a (solvedPts t.af (colOf t.j1 i))) := by
    unfold get_jf1
    rw [hi]
    simp only [if_neg hnotol]
    rw [apply_ite some]
  refine ⟨_, hval, ?_, ?_⟩
  · intro hempty
    rw [hempty]
    rfl
  · intro p0 pl h0 hl
    have hnonempty : solvedPts t.af (colOf t.j1 i) ≠ [] := by
      intro hc
      rw [hc] at h0
      exact Option.noConfusion h0
    have hie : (solvedPts t.af (colOf t.j1 i)).isEmpty = false := by
      cases hcase : solvedPts t.af (colOf t.j1 i) with
      | nil => exact absurd hcase hnonempty
      | cons p rest => rfl
    have hr : (if (solvedPts t.af (colOf t.j1 i)).isEmpty then (0 : ℚ)
        else interp a (solvedPts t.af (colOf t.j1 i))) =
        interp a (solvedPts t.af (colOf t.j1 i)) := by
      rw [hie]
      rfl
    constructor
    · intro hout
      rw [hr]
      rcases hout with hlt | hgt
      · exact interp_left_zero a _ p0 h0 hlt
      · exact interp_right_zero a _ (solvedPts_pairwise _ _ hs) pl hl hgt
    · intro hin0 hin1
      rw [hr]
      obtain ⟨p, hp, q, hq, t', ht0, ht1, hxeq, hveq⟩ :=
        interp_between a _ (solvedPts_pairwise _ _ hs) p0 pl h0 hl hin0 hin1
      obtain ⟨hbp1, hbp2⟩ := hB p hp
      obtain ⟨hbq1, hbq2⟩ := hB q hq
      rw [hveq]
      constructor
      · have hcx : jlc a ≤ t' * jlc p.1 + (1 - t') * jlc q.1 := by
          have h3 := hconv.2 (Set.mem_univ p.1) (Set.mem_univ q.1) ht0
            (by linarith : (0 : ℚ) ≤ 1 - t') (by ring : t' + (1 - t') = 1)
          rw [smul_eq_mul, smul_eq_mul, smul_eq_mul, smul_eq_mul] at h3
          rw [hxeq]
          exact h3
        have hlt2 : t' * jlc p.1 + (1 - t') * jlc q.1 <
            t' * p.2 + (1 - t') * q.2 := by
          rcases eq_or_lt_of_le ht0 with h0' | h0'
          · rw [← h0']
            simpa using hbq1
          · have h1 : t' * jlc p.1 < t' * p.2 := mul_lt_mul_of_pos_left hbp1 h0'
            have h2 : (1 - t') * jlc q.1 ≤ (1 - t') * q.2 :=
              mul_le_mul_of_nonneg_left (le_of_lt hbq1) (by linarith)
            linarith
        linarith
      · rcases eq_or_lt_of_le ht0 with h0' | h0'
        · rw [← h0']
          simpa using hbq2
        · have h1 : t' * p.2 < t' * 1 := mul_lt_mul_of_pos_left hbp2 h0'
          have h2 : (1 - t') * q.2 ≤ (1 - t') * 1 :=
            mul_le_mul_of_nonneg_left (le_of_lt hbq2) (by linarith)
          linarith

/-- C5 witness: a three-row table whose branch-1 column has one solved
entry `3/4` at axis `2`; the query at the solved axis value returns a
value in `(1/2, 1)`, and the hypotheses hold concretely. -/
theorem get_jf1_range_w :
    ((1 : ℚ) ∈ [(1 : ℚ)]) ∧
    (argminDist 1 [(1 : ℚ)] = some (0, 0)) ∧
    ([(1 : ℚ), 2, 4].Pairwise (· < ·)) ∧
    (∀ p ∈ solvedPts [(1 : ℚ), 2, 4] (colOf [[0], [mkRat 3 4], [0]] 0),
      (fun _ : ℚ => mkRat 1 2) p.1 < p.2 ∧ p.2 < 1) ∧
    ConvexOn ℚ Set.univ (fun _ : ℚ => mkRat 1 2) ∧
    (∃ r, get_jf1 ⟨[1], [1, 2, 4], [[0], [mkRat 3 4], [0]], [[0], [0], [0]]⟩
        1 2 = some r ∧
      (solvedPts [(1 : ℚ), 2, 4] (colOf [[0], [mkRat 3 4], [0]] 0) = [] →
        r = 0) ∧
      ∀ p0 pl,
        (solvedPts [(1 : ℚ), 2, 4] (colOf [[0], [mkRat 3 4], [0]] 0)).head? =
          some p0 →
        (solvedPts [(1 : ℚ), 2, 4]
          (colOf [[0], [mkRat 3 4], [0]] 0)).getLast? = some pl →
        ((((2 : ℚ) < p0.1 ∨ pl.1 < 2) → r = 0) ∧
         (p0.1 ≤ 2 → 2 ≤ pl.1 → mkRat 1 2 < r ∧ r < 1))) :=
  ⟨by decide, by simp [argminDist, absQ], by decide, by decide,
   convexOn_const _ convex_univ,
   get_jf1_range ⟨[1], [1, 2, 4], [[0], [mkRat 3 4], [0]], [[0], [0], [0]]⟩
     (fun _ : ℚ => mkRat 1 2) 1 2 0 0 (by decide)
     (by simp [argminDist, absQ]) (by decide) (by decide)
     (convexOn_const _ convex_univ)⟩

end Scrrpy
